import Mathlib

/-!
Verification of the route-origin-validator core (rov/__init__.py).

An IP prefix is modelled as its list of address bits, most significant
first; the length of the list is the prefix length, so the canonical
string form A.B.C.D/len corresponds to the first len bits of the
32-bit address.  A radix tree is modelled as the list of nodes that
were added to it, each node carrying its prefix and its data; the
library contract used by the source (search_exact, search_covering
ordered most specific first, search_best) is defined on that list.
-/

/-- One authorization entry attached to a (prefix, asn) pair.  RPKI
entries carry a maxLength; IRR entries have no maxLength key.  The
remaining record attributes (ta, uri, startTime, endTime, descr,
source) do not influence validation and are kept as an association
list of string pairs. -/
structure RoaEntry where
  maxLength : Option Nat
  attrs : List (String × String)
deriving DecidableEq

/-- Node payload for the rpki and irr trees: the dict mapping an
origin AS number to its list of authorization entries, in insertion
order (Python dicts preserve insertion order). -/
abbrev RoaData := List (Nat × List RoaEntry)

/-- A radix tree node: its prefix (as bits) and its data dict. -/
structure RNode (α : Type) where
  pfx : List Bool
  data : α
deriving DecidableEq

/-- Prefix a covers prefix b iff the bits of a are an initial segment
of the bits of b. -/
def covers (a b : List Bool) : Bool := a == b.take a.length

/-- Insert a node into a list kept sorted by decreasing prefix
length. -/
def insertByLen {α : Type} (n : RNode α) : List (RNode α) → List (RNode α)
  | [] => [n]
  | m :: rest =>
    if m.pfx.length ≤ n.pfx.length then n :: m :: rest
    else m :: insertByLen n rest

/-- Sort nodes by decreasing prefix length. -/
def sortByLenDesc {α : Type} : List (RNode α) → List (RNode α)
  | [] => []
  | n :: rest => insertByLen n (sortByLenDesc rest)

/-- radix search_covering: all nodes whose prefix covers the query,
ordered from most specific to least specific.  The covering prefixes
of a query are initial segments of it, so their lengths are pairwise
distinct and the order is uniquely determined. -/
def searchCovering {α : Type} (t : List (RNode α)) (q : List Bool) : List (RNode α) :=
  sortByLenDesc (t.filter (fun n => covers n.pfx q))

/-- radix search_best: the most specific covering node, if any. -/
def searchBest {α : Type} (t : List (RNode α)) (q : List Bool) : Option (RNode α) :=
  (searchCovering t q).head?

/-- Dict lookup origin_asn in rnode.data (membership test plus
access, as in the source). -/
def lookupAsn (d : RoaData) (a : Nat) : Option (List RoaEntry) :=
  (d.find? (fun kv => kv.1 == a)).map (fun kv => kv.2)

/-- rnode.data[asn].append(roa): create the key with an empty list
when absent (new dict keys go to the end, preserving insertion
order), then append the entry. -/
def addEntry : RoaData → Nat → RoaEntry → RoaData
  | [], asn, e => [(asn, [e])]
  | (k, es) :: rest, asn, e =>
    if k = asn then (k, es ++ [e]) :: rest
    else (k, es) :: addEntry rest asn e

/-- The insertion step shared by load_rpki and load_irr:
search_exact the prefix, add a fresh node when absent, then append
the entry under the asn key. -/
def insertRoa : List (RNode RoaData) → List Bool → Nat → RoaEntry → List (RNode RoaData)
  | [], pfx, asn, e => [⟨pfx, [(asn, [e])]⟩]
  | n :: rest, pfx, asn, e =>
    if n.pfx = pfx then ⟨n.pfx, addEntry n.data asn e⟩ :: rest
    else n :: insertRoa rest pfx asn e

/-- Load a stream of already parsed (prefix, asn, entry) records into
a tree, in order. -/
def loadRecords (t : List (RNode RoaData)) (recs : List ((List Bool) × Nat × RoaEntry)) :
    List (RNode RoaData) :=
  recs.foldl (fun acc r => insertRoa acc r.1 r.2.1 r.2.2) t

/-- The per-source part of the status dict built by check: the status
string and, when set, the prefix of the node it was taken from. -/
structure SourceStatus where
  status : String
  pfx : Option (List Bool)
deriving DecidableEq

/-- The promotion test of check: the entry has a maxLength at least
the query prefix length, or the query prefix equals the node
prefix. -/
def roaPasses (plen : Nat) (p npfx : List Bool) (roa : RoaEntry) : Bool :=
  (match roa.maxLength with
   | some m => decide (plen ≤ m)
   | none => false) || p == npfx

/-- The inner loop of check over the entries of one AS key: each
entry first sets the tentative status Invalid,more-specific with
itself selected, then the promotion test may turn it into Valid and
break out. -/
def scanRoas (p : List Bool) (plen : Nat) (npfx : List Bool) :
    List RoaEntry → (SourceStatus × Option RoaEntry) → (SourceStatus × Option RoaEntry)
  | [], st => st
  | roa :: rest, _ =>
    if roaPasses plen p npfx roa then (⟨"Valid", some npfx⟩, some roa)
    else scanRoas p plen npfx rest (⟨"Invalid,more-specific", some npfx⟩, some roa)

/-- The outer loop of check over the covering nodes, most specific
first: nodes without the queried AS key are skipped; after scanning
the entries of a node with the key, a Valid status stops the scan. -/
def scanNodes (p : List Bool) (plen : Nat) (a : Nat) :
    List (RNode RoaData) → (SourceStatus × Option RoaEntry) → (SourceStatus × Option RoaEntry)
  | [], st => st
  | n :: rest, st =>
    match lookupAsn n.data a with
    | none => scanNodes p plen a rest st
    | some roas =>
      let st2 := scanRoas p plen n.pfx roas st
      if st2.1.status = "Valid" then st2 else scanNodes p plen a rest st2

/-- Validation of one source tree, lines 384 to 421 of the source:
default NotFound; when covering nodes exist, seed Invalid with the
most specific node prefix and the first entry of its first AS key
(the source indexes into that list, which load always leaves
non-empty; an Option models it here); then run the scan.  The query
prefix length is the length parsed from the query string, which for a
well-formed prefix is the number of bits. -/
def checkSource (t : List (RNode RoaData)) (p : List Bool) (a : Nat) :
    SourceStatus × Option RoaEntry :=
  let rnodes := searchCovering t p
  let init : SourceStatus × Option RoaEntry :=
    match rnodes with
    | [] => (⟨"NotFound", none⟩, none)
    | n :: _ => (⟨"Invalid", some n.pfx⟩, n.data.head?.bind (fun kv => kv.2.head?))
  scanNodes p p.length a rnodes init

/-- Node payload of the delegated prefix tree and the value stored in
the delegated ASN interval dict: a plain string-keyed dict. -/
abbrev DelegData := List (String × String)

/-- The NotFound sentinel dict used by check for the delegated
statuses. -/
def notFoundData : DelegData := [("status", "NotFound")]

/-- portion IntervalDict.get(asn, default): the value of the interval
containing the AS number, else the default.  Intervals are closed on
both ends. -/
def intervalGet (d : List ((Nat × Nat) × DelegData)) (a : Nat) (dflt : DelegData) : DelegData :=
  match d.find? (fun iv => decide (iv.1.1 ≤ a) && decide (a ≤ iv.1.2)) with
  | some iv => iv.2
  | none => dflt

/-- The whole engine state: the two roa trees, the delegated prefix
tree and the delegated ASN interval dict. -/
structure ROVState where
  rpki : List (RNode RoaData)
  irr : List (RNode RoaData)
  delegatedPfx : List (RNode DelegData)
  delegatedAsn : List ((Nat × Nat) × DelegData)
deriving DecidableEq

/-- The result dict of check.  The source reports each source status
as one dict merging the status, the node prefix and the selected roa
attributes; the pair keeps the status part and the selected entry
apart, which is a representation choice only. -/
structure CheckResult where
  queryPfx : List Bool
  queryAsn : Nat
  rpki : SourceStatus × Option RoaEntry
  irr : SourceStatus × Option RoaEntry
  delegatedPfxStatus : DelegData
  delegatedAsnStatus : DelegData
deriving DecidableEq

/-- ROV.check on an already parsed prefix: validate both sources,
then look up the delegated statuses, defaulting to the NotFound
sentinel dict. -/
def check (st : ROVState) (p : List Bool) (a : Nat) : CheckResult :=
  { queryPfx := p
    queryAsn := a
    rpki := checkSource st.rpki p a
    irr := checkSource st.irr p a
    delegatedPfxStatus :=
      match searchBest st.delegatedPfx p with
      | some n => n.data
      | none => notFoundData
    delegatedAsnStatus := intervalGet st.delegatedAsn a notFoundData }

/-- The result dict of lookup: per source the covering nodes as a map
from node prefix to node data; the delegated key is present only when
search_best finds a node (the defaultdict never creates the key
otherwise), modelled as an Option. -/
structure LookupResult where
  rpki : List ((List Bool) × RoaData)
  irr : List ((List Bool) × RoaData)
  delegated : Option DelegData
deriving DecidableEq

/-- ROV.lookup, lines 351 to 366 of the source. -/
def lookup (st : ROVState) (p : List Bool) : LookupResult :=
  { irr := (searchCovering st.irr p).map (fun n => (n.pfx, n.data))
    rpki := (searchCovering st.rpki p).map (fun n => (n.pfx, n.data))
    delegated := (searchBest st.delegatedPfx p).map (fun n => n.data) }

/-- check with the engine state threaded through, as the Python
method receives self: every statement of the body only reads the
indices, so the state component of the result is the input state. -/
def checkSt (st : ROVState) (p : List Bool) (a : Nat) : CheckResult × ROVState :=
  (check st p a, st)

/-- lookup with the engine state threaded through. -/
def lookupSt (st : ROVState) (p : List Bool) : LookupResult × ROVState :=
  (lookup st p, st)

/-- Parse a run of decimal digits with accumulator. -/
def parseDigitsAux : List Char → Nat → Option Nat
  | [], acc => some acc
  | c :: rest, acc =>
    if c.isDigit then parseDigitsAux rest (acc * 10 + (c.toNat - 48)) else none

/-- int() on a non-empty run of decimal digits, else failure. -/
def parseDigits : List Char → Option Nat
  | [] => none
  | c :: rest => parseDigitsAux (c :: rest) 0

/-- Split a character list on a separator character. -/
def splitOnChar (sep : Char) : List Char → List (List Char)
  | [] => [[]]
  | c :: rest =>
    if c = sep then [] :: splitOnChar sep rest
    else
      match splitOnChar sep rest with
      | piece :: pieces => (c :: piece) :: pieces
      | [] => [[c]]

/-- The w most significant bits of a number, most significant
first. -/
def natToBits : Nat → Nat → List Bool
  | 0, _ => []
  | w + 1, n => (n / 2 ^ w % 2 == 1) :: natToBits w n

/-- Numeric value of a hexadecimal digit. -/
def hexVal (c : Char) : Option Nat :=
  if '0' ≤ c ∧ c ≤ '9' then some (c.toNat - 48)
  else if 'a' ≤ c ∧ c ≤ 'f' then some (c.toNat - 87)
  else if 'A' ≤ c ∧ c ≤ 'F' then some (c.toNat - 55)
  else none

/-- Accumulate a run of hexadecimal digits. -/
def parseHexGroupAux : List Char → Nat → Option Nat
  | [], acc => some acc
  | c :: rest, acc =>
    match hexVal c with
    | some v => parseHexGroupAux rest (acc * 16 + v)
    | none => none

/-- One IPv6 group: one to four hexadecimal digits. -/
def parseHexGroup (cs : List Char) : Option Nat :=
  if cs.length = 0 ∨ 4 < cs.length then none
  else parseHexGroupAux cs 0

/-- A dotted-quad IPv4 address: four decimal parts of at most three
digits, each below 256 (digit runs are read by value, as the standard
textual form does). -/
def parseV4Addr (cs : List Char) : Option Nat :=
  match splitOnChar '.' cs with
  | [a, b, c, d] =>
    match parseDigits a, parseDigits b, parseDigits c, parseDigits d with
    | some x1, some x2, some x3, some x4 =>
      if a.length ≤ 3 && b.length ≤ 3 && c.length ≤ 3 && d.length ≤ 3 &&
          x1 < 256 && x2 < 256 && x3 < 256 && x4 < 256 then
        some (((x1 * 256 + x2) * 256 + x3) * 256 + x4)
      else none
    | _, _, _, _ => none
  | _ => none

/-- Split a character list at the first double colon, when present. -/
def findElision : List Char → Option (List Char × List Char)
  | [] => none
  | ':' :: ':' :: rest => some ([], rest)
  | c :: rest => (findElision rest).map (fun lr => (c :: lr.1, lr.2))

/-- The bits of a list of 16-bit words, most significant first. -/
def wordsBits : List Nat → List Bool
  | [] => []
  | w :: rest => natToBits 16 w ++ wordsBits rest

/-- Parse the colon-separated groups of one side of an IPv6 address
into 16-bit words; the final group may be an embedded dotted-quad
IPv4 address, counting as two words, when allowed (only at the very
end of the address). -/
def parseV6Groups (allowV4 : Bool) : List (List Char) → Option (List Nat)
  | [] => some []
  | [g] =>
    if allowV4 && g.any (fun c => c == '.') then
      match parseV4Addr g with
      | some x => some [x / 65536, x % 65536]
      | none => none
    else
      match parseHexGroup g with
      | some w => some [w]
      | none => none
  | g :: g2 :: rest =>
    match parseHexGroup g, parseV6Groups allowV4 (g2 :: rest) with
    | some w, some ws => some (w :: ws)
    | _, _ => none

/-- Parse an IPv6 address in the standard textual form: eight
colon-separated groups, or fewer with one double-colon elision
standing for at least one zero group, with an optional embedded IPv4
tail; any stray colon or second elision leaves an empty group and is
rejected. -/
def parseV6Addr (cs : List Char) : Option (List Bool) :=
  match findElision cs with
  | none =>
    let ps := splitOnChar ':' cs
    if ps.any (fun g => g.isEmpty) then none
    else
      match parseV6Groups true ps with
      | some ws => if ws.length = 8 then some (wordsBits ws) else none
      | none => none
  | some (l, r) =>
    let lg := if l.isEmpty then [] else splitOnChar ':' l
    let rg := if r.isEmpty then [] else splitOnChar ':' r
    if lg.any (fun g => g.isEmpty) || rg.any (fun g => g.isEmpty) then none
    else
      match parseV6Groups false lg, parseV6Groups true rg with
      | some lw, some rw =>
        if lw.length + rw.length ≤ 7 then
          some (wordsBits (lw ++ List.replicate (8 - lw.length - rw.length) 0 ++ rw))
        else none
      | _, _ => none

/-- Parse an IP address of either family into its bits, choosing the
family by the presence of a colon, as the radix library does: 32 bits
for IPv4, 128 bits for IPv6. -/
def parseAddr (cs : List Char) : Option (List Bool) :=
  if cs.any (fun c => c == ':') then parseV6Addr cs
  else (parseV4Addr cs).map (natToBits 32)

/-- Parse a prefix string address/len of either family: the length
must be a decimal number at most the address width.  Any other shape
is one where check raises: int() fails on a missing or non-numeric
length part, or the radix tree parse rejects the address or mask. -/
def parsePfx (s : String) : Option (List Bool) :=
  match splitOnChar '/' s.toList with
  | [addrCs, lenCs] =>
    match parseAddr addrCs, parseDigits lenCs with
    | some bits, some l => if l ≤ bits.length then some (bits.take l) else none
    | _, _ => none
  | _ => none

/-- Parse a query string as lookup accepts it: a prefix address/len,
or a bare address, whose mask the radix library defaults to the full
address width.  Any other shape is one where the radix tree parse
raises. -/
def parseQuery (s : String) : Option (List Bool) :=
  match splitOnChar '/' s.toList with
  | [addrCs] => parseAddr addrCs
  | [addrCs, lenCs] =>
    match parseAddr addrCs, parseDigits lenCs with
    | some bits, some l => if l ≤ bits.length then some (bits.take l) else none
    | _, _ => none
  | _ => none

/-- ROV.check at the string interface: check parses the length part
with int() before consulting the trees, so it requires the
address/len shape; a malformed string fails the call immediately with
the InvalidPrefix error, a well-formed prefix runs the total
validation. -/
def checkE (st : ROVState) (s : String) (a : Nat) : Except String CheckResult :=
  match parsePfx s with
  | none => Except.error "InvalidPrefix"
  | some p => Except.ok (check st p a)

/-- ROV.lookup at the string interface: the string goes straight to
the radix trees, so a prefix or a bare address is accepted; a string
parsing as neither fails the call immediately with the InvalidPrefix
error. -/
def lookupE (st : ROVState) (s : String) : Except String LookupResult :=
  match parseQuery s with
  | none => Except.error "InvalidPrefix"
  | some p => Except.ok (lookup st p)

/-!
The delegated-stats loader, lines 123 to 226 of the source.  A parsed
record line of the file is either an asn record or a prefix (ipv4 or
ipv6) record; comment, version and summary lines are filtered out
before this stream, as the source does with the startswith and field
count tests.  The AS-interval logic is modelled in full; the
insertion of prefix records into the delegated prefix tree is an
independent exact-match insert and only the flushing side effect of a
prefix record on the pending AS interval matters here.
-/

/-- One parsed delegated-stats record line with at least 8 fields:
registry|cc|type|start|value|date|status.  For an asn record the
start field is the first AS number and value the count; for a prefix
record the start field is the address string. -/
inductive DLine where
  | asnL (registry cc : String) (start value : Nat) (date status : String)
  | pfxL (registry cc : String) (isV4 : Bool) (start : String) (value : Nat) (date status : String)
deriving DecidableEq

/-- The loop state of load_delegated.  The source keeps start_interval
(the record opening the current interval) and previous_rec (the last
asn record read) in two variables that are always set and reset
together, an invariant of the loop; pending packs them as
(start_interval.start, previous registry, previous status, previous
start, previous value).  The dict values stored for an interval are
the pair (registry, status), standing for the two-key dict with the
status and registry fields. -/
structure BuildState where
  pending : Option (Nat × String × String × Nat × Nat)
  intervals : List ((String × String) × (Nat × Nat))
  asnDict : List ((Nat × Nat) × (String × String))
deriving DecidableEq

/-- One iteration of the load_delegated line loop.  An asn record
either opens the first interval, extends the current one (same
registry, same status, contiguous), or closes it into the intervals
dict (keyed by registry and status) and opens a new one.  A prefix
record following asn records closes the pending interval directly
into the ASN interval dict and resets the loop state. -/
def delegStep (st : BuildState) : DLine → BuildState
  | .asnL reg _cc start value _date status =>
    match st.pending with
    | none =>
      { st with pending := some (start, reg, status, start, value) }
    | some (s0, preg, pstatus, pstart, pvalue) =>
      if preg == reg && pstatus == status && pstart + pvalue == start then
        { st with pending := some (s0, reg, status, start, value) }
      else
        { st with
            intervals := st.intervals ++ [((preg, pstatus), (s0, pstart + pvalue - 1))]
            pending := some (start, reg, status, start, value) }
  | .pfxL _ _ _ _ _ _ _ =>
    match st.pending with
    | none => st
    | some (s0, preg, pstatus, pstart, pvalue) =>
      { st with
          asnDict := st.asnDict ++ [((s0, pstart + pvalue - 1), (preg, pstatus))]
          pending := none }

/-- Run the load_delegated loop over a parsed line stream from the
initial state.  A pending interval left at the end of the stream is
dropped, as in the source, where only a following prefix record or a
later non-matching asn record stores it. -/
def buildDeleg (lines : List DLine) : BuildState :=
  lines.foldl delegStep ⟨none, [], []⟩

/-- All intervals finally assigned into the delegated ASN interval
dict, with their (registry, status) key: the directly flushed ones in
flush order, then the ones of the intervals dict assigned after the
loop (closed integer intervals that touch at end+1 = start are kept
as distinct atoms by the portion library, whose union only merges
real overlaps, so the assignment after the loop preserves the listed
atoms for the inputs considered here). -/
def storedK (st : BuildState) : List ((String × String) × (Nat × Nat)) :=
  st.asnDict.map (fun x => (x.2, x.1)) ++ st.intervals

/-- The intervals stored for one (registry, status) key after loading
a line stream. -/
def storedIntervals (lines : List DLine) (registry status : String) : List (Nat × Nat) :=
  let st := buildDeleg lines
  ((st.asnDict.filter (fun x => x.2 == (registry, status))).map (fun x => x.1))
    ++ ((st.intervals.filter (fun x => x.1 == (registry, status))).map (fun x => x.2))

/-- Two closed integer intervals are disjoint and not adjacent. -/
def disjNonAdj (i j : Nat × Nat) : Prop :=
  (i.2 < j.1 ∨ j.2 < i.1) ∧ i.2 + 1 ≠ j.1 ∧ j.2 + 1 ≠ i.1

/-- The invariant claimed for the interval set of one key: pairwise
disjoint and maximal, with no two distinct intervals adjacent. -/
def disjointMaximal (l : List (Nat × Nat)) : Prop :=
  ∀ i ∈ l, ∀ j ∈ l, i ≠ j → disjNonAdj i j

instance (i j : Nat × Nat) : Decidable (disjNonAdj i j) := by
  unfold disjNonAdj; infer_instance

instance (l : List (Nat × Nat)) : Decidable (disjointMaximal l) := by
  unfold disjointMaximal; exact List.decidableBAll _ l

/-- Well-formedness of a delegated line stream, tracking the last asn
record seen and whether a prefix record occurred since: AS counts are
positive, asn records are sorted and non-overlapping (each start is
at least the previous start plus value), and an asn record opening
after a flush is not contiguous with a flushed record of the same
registry and status (in the real files a registry section lists all
its asn records before its prefix records, so the flushed interval
and the next asn record differ in registry). -/
def wfAux : Option (String × String × Nat × Nat) → Bool → List DLine → Bool
  | _, _, [] => true
  | last, flushed, .asnL reg _cc s v _d status :: rest =>
    decide (1 ≤ v) &&
    (match last with
     | none => true
     | some (lreg, lstatus, ls, lv) =>
       decide (ls + lv ≤ s) &&
       (!(flushed && lreg == reg && lstatus == status) || decide (ls + lv < s))) &&
    wfAux (some (reg, status, s, v)) false rest
  | last, _flushed, .pfxL _ _ _ _ _ _ _ :: rest => wfAux last true rest

/-- Well-formed delegated line stream, from the initial loop state. -/
def wfDeleg (lines : List DLine) : Bool := wfAux none false lines

/-- A parsed asn record, for stating properties of the interval
builder alone. -/
structure AsnRec where
  registry : String
  cc : String
  start : Nat
  value : Nat
  date : String
  status : String
deriving DecidableEq

/-- The line of an asn record. -/
def toAsnLine (r : AsnRec) : DLine :=
  .asnL r.registry r.cc r.start r.value r.date r.status

/-- The keyed interval described by one asn record on its own:
[start, start + value - 1] under the (registry, status) key. -/
def describes (r : AsnRec) : (String × String) × (Nat × Nat) :=
  ((r.registry, r.status), (r.start, r.start + r.value - 1))

/-- Two consecutive asn records do not merge: the coalescing
condition (same registry, same status, contiguous) fails. -/
def noMerge (a b : AsnRec) : Bool :=
  !(a.registry == b.registry && a.status == b.status && a.start + a.value == b.start)

/-- A record list is already coalesced: no two consecutive records
merge. -/
def chainNoMerge : List AsnRec → Bool
  | [] => true
  | [_] => true
  | a :: b :: rest => noMerge a b && chainNoMerge (b :: rest)

/-- The last record of a non-empty chain given as head and tail. -/
def lastRec (prev : AsnRec) : List AsnRec → AsnRec
  | [] => prev
  | a :: rest => lastRec a rest

/-!  Lemmas about the per-source scan of check. -/

/-- Unfolding step of scanRoas on a cons cell. -/
theorem scanRoas_cons (p : List Bool) (plen : Nat) (npfx : List Bool)
    (roa : RoaEntry) (rest : List RoaEntry) (st : SourceStatus × Option RoaEntry) :
    scanRoas p plen npfx (roa :: rest) st =
      if roaPasses plen p npfx roa then (⟨"Valid", some npfx⟩, some roa)
      else scanRoas p plen npfx rest (⟨"Invalid,more-specific", some npfx⟩, some roa) := rfl

/-- Unfolding step of scanNodes on a cons cell. -/
theorem scanNodes_cons (p : List Bool) (plen a : Nat) (n : RNode RoaData)
    (rest : List (RNode RoaData)) (st : SourceStatus × Option RoaEntry) :
    scanNodes p plen a (n :: rest) st =
      match lookupAsn n.data a with
      | none => scanNodes p plen a rest st
      | some roas =>
        if (scanRoas p plen n.pfx roas st).1.status = "Valid" then scanRoas p plen n.pfx roas st
        else scanNodes p plen a rest (scanRoas p plen n.pfx roas st) := rfl

/-- scanNodes skips a node without the queried AS key. -/
theorem scanNodes_cons_none (p : List Bool) (plen a : Nat) (n : RNode RoaData)
    (rest : List (RNode RoaData)) (st : SourceStatus × Option RoaEntry)
    (h : lookupAsn n.data a = none) :
    scanNodes p plen a (n :: rest) st = scanNodes p plen a rest st := by
  rw [scanNodes_cons, h]

/-- scanNodes on a node with the queried AS key. -/
theorem scanNodes_cons_some (p : List Bool) (plen a : Nat) (n : RNode RoaData)
    (rest : List (RNode RoaData)) (st : SourceStatus × Option RoaEntry)
    (roas : List RoaEntry) (h : lookupAsn n.data a = some roas) :
    scanNodes p plen a (n :: rest) st =
      if (scanRoas p plen n.pfx roas st).1.status = "Valid" then scanRoas p plen n.pfx roas st
      else scanNodes p plen a rest (scanRoas p plen n.pfx roas st) := by
  rw [scanNodes_cons, h]

/-- When some entry of the scanned list passes the promotion test,
the scan returns Valid with the node prefix and the first passing
entry, whatever the incoming status. -/
theorem scanRoas_valid (p : List Bool) (plen : Nat) (npfx : List Bool)
    (roas : List RoaEntry) (hpass : ∃ roa ∈ roas, roaPasses plen p npfx roa = true) :
    ∀ st, scanRoas p plen npfx roas st =
      (⟨"Valid", some npfx⟩, roas.find? (roaPasses plen p npfx)) := by
  induction roas with
  | nil => simp at hpass
  | cons r rest ih =>
    intro st
    by_cases h : roaPasses plen p npfx r = true
    · rw [scanRoas_cons, if_pos h, List.find?_cons_of_pos _ h]
    · have h2 : ¬ (roaPasses plen p npfx r = true) := h
      rcases hpass with ⟨roa, hmem, hroa⟩
      rcases List.mem_cons.mp hmem with rfl | hmem2
      · exact absurd hroa h
      · rw [scanRoas_cons, if_neg h2, List.find?_cons_of_neg _ h2]
        exact ih ⟨roa, hmem2, hroa⟩ _

/-- When every entry of a non-empty scanned list fails the promotion
test, the scan status is Invalid,more-specific with the node prefix,
whatever the incoming status. -/
theorem scanRoas_allFail (p : List Bool) (plen : Nat) (npfx : List Bool)
    (roas : List RoaEntry) (hne : roas ≠ [])
    (hfail : ∀ roa ∈ roas, roaPasses plen p npfx roa = false) :
    ∀ st, (scanRoas p plen npfx roas st).1 = ⟨"Invalid,more-specific", some npfx⟩ := by
  induction roas with
  | nil => exact absurd rfl hne
  | cons r rest ih =>
    intro st
    have hr := hfail r (List.mem_cons_self r rest)
    rw [scanRoas_cons, if_neg (by simp [hr])]
    cases rest with
    | nil => rfl
    | cons r2 rest2 =>
      exact ih (by simp) (fun roa h => hfail roa (List.mem_cons_of_mem r h)) _

/-- When every entry of the scanned list fails the promotion test,
the scan keeps an incoming Invalid,more-specific status. -/
theorem scanRoas_allFail_status (p : List Bool) (plen : Nat) (npfx : List Bool)
    (roas : List RoaEntry)
    (hfail : ∀ roa ∈ roas, roaPasses plen p npfx roa = false) :
    ∀ st, st.1.status = "Invalid,more-specific" →
      (scanRoas p plen npfx roas st).1.status = "Invalid,more-specific" := by
  induction roas with
  | nil => intro st h; exact h
  | cons r rest ih =>
    intro st h
    have hr := hfail r (List.mem_cons_self r rest)
    rw [scanRoas_cons, if_neg (by simp [hr])]
    exact ih (fun roa hm => hfail roa (List.mem_cons_of_mem r hm)) _ rfl

/-- Nodes without the queried AS key leave the status untouched. -/
theorem scanNodes_skip (p : List Bool) (plen a : Nat)
    (nodes : List (RNode RoaData))
    (hnone : ∀ n ∈ nodes, lookupAsn n.data a = none) :
    ∀ st, scanNodes p plen a nodes st = st := by
  induction nodes with
  | nil => intro st; rfl
  | cons n rest ih =>
    intro st
    rw [scanNodes_cons_none p plen a n rest st (hnone n (List.mem_cons_self n rest))]
    exact ih (fun m hm => hnone m (List.mem_cons_of_mem n hm)) _

/-- When every entry of every remaining node keyed by the queried AS
fails the promotion test, an Invalid,more-specific status survives
the scan of those nodes. -/
theorem scanNodes_noValid (p : List Bool) (plen a : Nat)
    (nodes : List (RNode RoaData))
    (hfail : ∀ n ∈ nodes, ∀ roas, lookupAsn n.data a = some roas →
      ∀ roa ∈ roas, roaPasses plen p n.pfx roa = false) :
    ∀ st, st.1.status = "Invalid,more-specific" →
      (scanNodes p plen a nodes st).1.status = "Invalid,more-specific" := by
  induction nodes with
  | nil => intro st h; exact h
  | cons n rest ih =>
    intro st h
    have hrec := ih (fun m hm => hfail m (List.mem_cons_of_mem n hm))
    cases hl : lookupAsn n.data a with
    | none =>
      rw [scanNodes_cons_none p plen a n rest st hl]
      exact hrec _ h
    | some roas =>
      have hst2 := scanRoas_allFail_status p plen n.pfx roas
        (hfail n (List.mem_cons_self n rest) roas hl) st h
      rw [scanNodes_cons_some p plen a n rest st roas hl]
      have hnv : ¬ ((scanRoas p plen n.pfx roas st).1.status = "Valid") := by
        rw [hst2]; decide
      rw [if_neg hnv]
      exact hrec _ hst2

/-- checkSource unfolded on a non-empty covering list. -/
theorem checkSource_cons (t : List (RNode RoaData)) (p : List Bool) (a : Nat)
    (n : RNode RoaData) (rest : List (RNode RoaData))
    (hcov : searchCovering t p = n :: rest) :
    checkSource t p a = scanNodes p p.length a (n :: rest)
      (⟨"Invalid", some n.pfx⟩, n.data.head?.bind (fun kv => kv.2.head?)) := by
  unfold checkSource
  rw [hcov]

/-- checkSource returns Valid with the most specific covering node
prefix and its first passing entry when that node is keyed by the
queried AS with a passing entry. -/
theorem checkSource_valid (t : List (RNode RoaData)) (p : List Bool) (a : Nat)
    (n : RNode RoaData) (rest : List (RNode RoaData)) (roas : List RoaEntry)
    (hcov : searchCovering t p = n :: rest)
    (hasn : lookupAsn n.data a = some roas)
    (hpass : ∃ roa ∈ roas, roaPasses p.length p n.pfx roa = true) :
    checkSource t p a = (⟨"Valid", some n.pfx⟩, roas.find? (roaPasses p.length p n.pfx)) := by
  have hs := scanRoas_valid p p.length n.pfx roas hpass
  rw [checkSource_cons t p a n rest hcov,
    scanNodes_cons_some p p.length a n rest _ roas hasn, hs, if_pos rfl]

/-- checkSource reports Invalid with the most specific covering node
prefix when covering nodes exist but none is keyed by the queried
AS. -/
theorem checkSource_invalid (t : List (RNode RoaData)) (p : List Bool) (a : Nat)
    (n : RNode RoaData) (rest : List (RNode RoaData))
    (hcov : searchCovering t p = n :: rest)
    (hnone : ∀ m ∈ n :: rest, lookupAsn m.data a = none) :
    (checkSource t p a).1 = ⟨"Invalid", some n.pfx⟩ := by
  rw [checkSource_cons t p a n rest hcov, scanNodes_skip p p.length a (n :: rest) hnone]

/-- checkSource reports Invalid,more-specific when the most specific
covering node is keyed by the queried AS with only failing entries
and no less specific covering node keyed by that AS has a passing
entry. -/
theorem checkSource_moreSpecific (t : List (RNode RoaData)) (p : List Bool) (a : Nat)
    (n : RNode RoaData) (rest : List (RNode RoaData)) (roas : List RoaEntry)
    (hcov : searchCovering t p = n :: rest)
    (hasn : lookupAsn n.data a = some roas)
    (hne : roas ≠ [])
    (hfail : ∀ roa ∈ roas, roaPasses p.length p n.pfx roa = false)
    (hrest : ∀ m ∈ rest, ∀ roas2, lookupAsn m.data a = some roas2 →
      ∀ roa ∈ roas2, roaPasses p.length p m.pfx roa = false) :
    (checkSource t p a).1.status = "Invalid,more-specific" := by
  rw [checkSource_cons t p a n rest hcov,
    scanNodes_cons_some p p.length a n rest _ roas hasn]
  have hst2 := scanRoas_allFail p p.length n.pfx roas hne hfail
    (⟨"Invalid", some n.pfx⟩, n.data.head?.bind (fun kv => kv.2.head?))
  have hnv : ¬ ((scanRoas p p.length n.pfx roas
      (⟨"Invalid", some n.pfx⟩, n.data.head?.bind (fun kv => kv.2.head?))).1.status = "Valid") := by
    rw [hst2]; simp
  rw [if_neg hnv]
  exact scanNodes_noValid p p.length a rest hrest _ (by rw [hst2])

/-!  Lemmas about loading authorization records and looking them up. -/

/-- Dict lookup on a cons cell. -/
theorem lookupAsn_cons (k : Nat) (es : List RoaEntry) (rest : RoaData) (a : Nat) :
    lookupAsn ((k, es) :: rest) a = if k == a then some es else lookupAsn rest a := by
  by_cases h : (k == a) = true <;> simp [lookupAsn, List.find?, h]

/-- Some node of the tree with the given prefix holds the entry under
the AS key. -/
def memEntry (t : List (RNode RoaData)) (p : List Bool) (a : Nat) (e : RoaEntry) : Prop :=
  ∃ n, n ∈ t ∧ n.pfx = p ∧ ∃ es, lookupAsn n.data a = some es ∧ e ∈ es

/-- After appending an entry under a key, the key holds it. -/
theorem addEntry_self (d : RoaData) (a : Nat) (e : RoaEntry) :
    ∃ es, lookupAsn (addEntry d a e) a = some es ∧ e ∈ es := by
  induction d with
  | nil => exact ⟨[e], by simp [addEntry, lookupAsn_cons], by simp⟩
  | cons kv rest ih =>
    obtain ⟨k, es0⟩ := kv
    by_cases hk : k = a
    · subst hk
      exact ⟨es0 ++ [e], by simp [addEntry, lookupAsn_cons], by simp⟩
    · obtain ⟨es, hes, he⟩ := ih
      refine ⟨es, ?_, he⟩
      rw [show addEntry ((k, es0) :: rest) a e = (k, es0) :: addEntry rest a e from by
        simp [addEntry, hk]]
      rw [lookupAsn_cons, if_neg (by simp [hk]), hes]

/-- Appending an entry never removes entries already present under a
key. -/
theorem addEntry_pres (d : RoaData) (a : Nat) (es : List RoaEntry) (e : RoaEntry)
    (h : lookupAsn d a = some es) (he : e ∈ es) (b : Nat) (f : RoaEntry) :
    ∃ es2, lookupAsn (addEntry d b f) a = some es2 ∧ e ∈ es2 := by
  induction d with
  | nil => simp [lookupAsn] at h
  | cons kv rest ih =>
    obtain ⟨k, es0⟩ := kv
    rw [lookupAsn_cons] at h
    by_cases hkb : k = b
    · subst hkb
      rw [show addEntry ((k, es0) :: rest) k f = (k, es0 ++ [f]) :: rest from by
        simp [addEntry]]
      rw [lookupAsn_cons]
      by_cases hka : (k == a) = true
      · rw [if_pos hka]
        rw [if_pos hka] at h
        have hes0 : es0 = es := by injection h
        exact ⟨es0 ++ [f], rfl, List.mem_append.mpr (Or.inl (by rw [hes0]; exact he))⟩
      · rw [if_neg hka]
        rw [if_neg hka] at h
        exact ⟨es, h, he⟩
    · rw [show addEntry ((k, es0) :: rest) b f = (k, es0) :: addEntry rest b f from by
        simp [addEntry, hkb]]
      rw [lookupAsn_cons]
      by_cases hka : (k == a) = true
      · rw [if_pos hka]
        rw [if_pos hka] at h
        have hes0 : es0 = es := by injection h
        exact ⟨es0, rfl, by rw [hes0]; exact he⟩
      · rw [if_neg hka]
        rw [if_neg hka] at h
        exact ih h

/-- The inserted entry is present after the insert. -/
theorem insertRoa_self (t : List (RNode RoaData)) (p : List Bool) (a : Nat) (e : RoaEntry) :
    memEntry (insertRoa t p a e) p a e := by
  induction t with
  | nil =>
    exact ⟨⟨p, [(a, [e])]⟩, by simp [insertRoa], rfl,
      [e], by simp [lookupAsn_cons], by simp⟩
  | cons n rest ih =>
    by_cases hp : n.pfx = p
    · obtain ⟨es, hes, he⟩ := addEntry_self n.data a e
      exact ⟨⟨n.pfx, addEntry n.data a e⟩, by simp [insertRoa, hp], hp, es, hes, he⟩
    · obtain ⟨m, hm, hmp, es, hes, he⟩ := ih
      exact ⟨m, by simp [insertRoa, hp, hm], hmp, es, hes, he⟩

/-- Entries present before an insert are still present after it. -/
theorem insertRoa_pres (t : List (RNode RoaData)) (p : List Bool) (a : Nat) (e : RoaEntry)
    (h : memEntry t p a e) (q : List Bool) (b : Nat) (f : RoaEntry) :
    memEntry (insertRoa t q b f) p a e := by
  induction t with
  | nil => obtain ⟨n, hn, _⟩ := h; simp at hn
  | cons n rest ih =>
    obtain ⟨m, hm, hmp, es, hes, he⟩ := h
    by_cases hq : n.pfx = q
    · rcases List.mem_cons.mp hm with rfl | hm2
      · obtain ⟨es2, hes2, he2⟩ := addEntry_pres m.data a es e hes he b f
        exact ⟨⟨m.pfx, addEntry m.data b f⟩, by simp [insertRoa, hq], hmp, es2, hes2, he2⟩
      · exact ⟨m, by simp [insertRoa, hq, hm2], hmp, es, hes, he⟩
    · rcases List.mem_cons.mp hm with rfl | hm2
      · exact ⟨m, by simp [insertRoa, hq], hmp, es, hes, he⟩
      · obtain ⟨m2, hm2b, hmp2, es2, hes2, he2⟩ := ih ⟨m, hm2, hmp, es, hes, he⟩
        exact ⟨m2, by simp [insertRoa, hq, hm2b], hmp2, es2, hes2, he2⟩

/-- Loading more records preserves present entries. -/
theorem loadRecords_pres (recs : List ((List Bool) × Nat × RoaEntry)) :
    ∀ (t : List (RNode RoaData)) (p : List Bool) (a : Nat) (e : RoaEntry),
      memEntry t p a e → memEntry (loadRecords t recs) p a e := by
  induction recs with
  | nil => intro t p a e h; exact h
  | cons r rest ih =>
    intro t p a e h
    exact ih _ p a e (insertRoa_pres t p a e h r.1 r.2.1 r.2.2)

/-- Every loaded record is present in the resulting tree. -/
theorem loadRecords_mem (recs : List ((List Bool) × Nat × RoaEntry)) :
    ∀ (t : List (RNode RoaData)) (p : List Bool) (a : Nat) (e : RoaEntry),
      (p, a, e) ∈ recs → memEntry (loadRecords t recs) p a e := by
  induction recs with
  | nil => intro t p a e h; simp at h
  | cons r rest ih =>
    intro t p a e h
    rcases List.mem_cons.mp h with heq | hm
    · rw [← heq]
      exact loadRecords_pres rest _ p a e (by rw [← heq] at *; exact insertRoa_self t p a e)
    · exact ih _ p a e hm

/-- Membership through the insertion sort. -/
theorem mem_insertByLen {α : Type} (n x : RNode α) (l : List (RNode α)) :
    x ∈ insertByLen n l ↔ x = n ∨ x ∈ l := by
  induction l with
  | nil => simp [insertByLen]
  | cons m rest ih =>
    by_cases h : m.pfx.length ≤ n.pfx.length
    · simp [insertByLen, h]
    · simp [insertByLen, h, ih]
      tauto

/-- Sorting by length preserves membership. -/
theorem mem_sortByLenDesc {α : Type} (x : RNode α) (l : List (RNode α)) :
    x ∈ sortByLenDesc l ↔ x ∈ l := by
  induction l with
  | nil => simp [sortByLenDesc]
  | cons n rest ih => simp [sortByLenDesc, mem_insertByLen, ih]

/-- A node of the tree covering the query occurs among the covering
nodes found for it. -/
theorem mem_searchCovering {α : Type} (t : List (RNode α)) (q : List Bool) (n : RNode α)
    (hn : n ∈ t) (hc : covers n.pfx q = true) : n ∈ searchCovering t q := by
  unfold searchCovering
  rw [mem_sortByLenDesc]
  exact List.mem_filter.mpr ⟨hn, hc⟩

/-- Every prefix covers itself. -/
theorem covers_self (p : List Bool) : covers p p = true := by simp [covers]

/-- The lookup result for one source holds the entry for the queried
prefix under the queried AS. -/
def retrievable (m : List ((List Bool) × RoaData)) (p : List Bool) (a : Nat) (e : RoaEntry) :
    Prop :=
  ∃ d, (p, d) ∈ m ∧ ∃ es, lookupAsn d a = some es ∧ e ∈ es

/-- Round trip for one source tree built from a record stream. -/
theorem loadRetrieves (recs : List ((List Bool) × Nat × RoaEntry))
    (p : List Bool) (a : Nat) (e : RoaEntry) (h : (p, a, e) ∈ recs) :
    retrievable ((searchCovering (loadRecords [] recs) p).map (fun n => (n.pfx, n.data)))
      p a e := by
  obtain ⟨n, hn, hpfx, es, hes, he⟩ := loadRecords_mem recs [] p a e h
  refine ⟨n.data, ?_, es, hes, he⟩
  have hmem : n ∈ searchCovering (loadRecords [] recs) p :=
    mem_searchCovering _ _ _ hn (hpfx ▸ covers_self p)
  exact List.mem_map.mpr ⟨n, hmem, by rw [hpfx]⟩

/-!  Lemmas about the delegated AS-interval builder. -/

/-- Any two distinct stored keyed intervals with the same key are
disjoint and non-adjacent. -/
def goodAll (l : List ((String × String) × (Nat × Nat))) : Prop :=
  ∀ x ∈ l, ∀ y ∈ l, x ≠ y → x.1 = y.1 → disjNonAdj x.2 y.2

/-- The loop invariant of load_delegated, relative to the last asn
record seen (as tracked by the well-formedness predicate) and the
flushed flag: stored intervals are pairwise good and non-empty, and
they all end strictly below the opening point of the pending interval
(when the keys agree) or at most at it (otherwise); after a flush the
bound is expressed against the last asn record. -/
def StateOK (st : BuildState) (last : Option (String × String × Nat × Nat))
    (flushed : Bool) : Prop :=
  goodAll (storedK st) ∧ (∀ x ∈ storedK st, x.2.1 ≤ x.2.2) ∧
  ((st.pending = none ∧ last = none ∧ storedK st = []) ∨
   (∃ lreg lstatus ls lv, st.pending = none ∧ last = some (lreg, lstatus, ls, lv) ∧
      flushed = true ∧ 1 ≤ lv ∧
      (∀ x ∈ storedK st, x.2.2 + 1 ≤ ls + lv) ∧
      (∀ x ∈ storedK st, x.1 ≠ (lreg, lstatus) → x.2.2 + 1 ≤ ls)) ∨
   (∃ s0 lreg lstatus ls lv, st.pending = some (s0, lreg, lstatus, ls, lv) ∧
      last = some (lreg, lstatus, ls, lv) ∧
      s0 ≤ ls ∧ 1 ≤ lv ∧
      (∀ x ∈ storedK st, x.2.2 + 1 ≤ s0) ∧
      (∀ x ∈ storedK st, x.1 = (lreg, lstatus) → x.2.2 + 1 < s0)))

/-- Adding a keyed interval that opens strictly above the end of
every stored interval of its key, and at least after its own start,
preserves goodness. -/
theorem goodAll_extend (l l2 : List ((String × String) × (Nat × Nat)))
    (nw : (String × String) × (Nat × Nat))
    (hmem : ∀ x, x ∈ l2 ↔ x ∈ l ∨ x = nw)
    (hgood : goodAll l)
    (hne : ∀ x ∈ l, x.2.1 ≤ x.2.2)
    (hbound : ∀ x ∈ l, x.1 = nw.1 → x.2.2 + 1 < nw.2.1)
    (hle : nw.2.1 ≤ nw.2.2) :
    goodAll l2 := by
  intro x hx y hy hxy hkey
  rcases (hmem x).mp hx with hxl | hxe
  · rcases (hmem y).mp hy with hyl | hye
    · exact hgood x hxl y hyl hxy hkey
    · subst hye
      have hb := hbound x hxl hkey
      have hn := hne x hxl
      unfold disjNonAdj
      omega
  · subst hxe
    rcases (hmem y).mp hy with hyl | hye
    · have hb := hbound y hyl hkey.symm
      have hn := hne y hyl
      unfold disjNonAdj
      omega
    · exact absurd hye.symm hxy

/-- The asn-record step of the loop preserves the invariant, when the
record respects the ordering constraints against the last asn record
seen. -/
theorem stateOK_asn (st : BuildState) (last : Option (String × String × Nat × Nat))
    (flushed : Bool) (reg cc : String) (s v : Nat) (d status : String)
    (hok : StateOK st last flushed) (hv : 1 ≤ v)
    (hcond : ∀ lreg lstatus ls lv, last = some (lreg, lstatus, ls, lv) →
      ls + lv ≤ s ∧ (flushed = true → lreg = reg → lstatus = status → ls + lv < s)) :
    StateOK (delegStep st (.asnL reg cc s v d status)) (some (reg, status, s, v)) false := by
  obtain ⟨hgood, hnemp, hd⟩ := hok
  rcases hd with ⟨hpn, hln, hsk⟩ |
    ⟨lreg, lstatus, ls, lv, hpn, hls, hfl, hlv, hb1, hb2⟩ |
    ⟨s0, lreg, lstatus, ls, lv, hpn, hls, hs0, hlv, hb1, hb2⟩
  · -- first asn record ever
    have hstep : delegStep st (.asnL reg cc s v d status) =
        { st with pending := some (s, reg, status, s, v) } := by
      simp [delegStep, hpn]
    rw [hstep]
    refine ⟨hgood, hnemp, Or.inr (Or.inr ⟨s, reg, status, s, v, rfl, rfl, le_refl s, hv,
      ?_, ?_⟩)⟩
    · intro x hx
      have hx2 : x ∈ storedK st := hx
      rw [hsk] at hx2
      simp at hx2
    · intro x hx
      have hx2 : x ∈ storedK st := hx
      rw [hsk] at hx2
      simp at hx2
  · -- first asn record after a flush
    obtain ⟨hmono, hstrict⟩ := hcond lreg lstatus ls lv hls
    have hstep : delegStep st (.asnL reg cc s v d status) =
        { st with pending := some (s, reg, status, s, v) } := by
      simp [delegStep, hpn]
    rw [hstep]
    refine ⟨hgood, hnemp, Or.inr (Or.inr ⟨s, reg, status, s, v, rfl, rfl, le_refl s, hv,
      ?_, ?_⟩)⟩
    · intro x hx
      have := hb1 x hx
      omega
    · intro x hx hxk
      by_cases hkk : (lreg, lstatus) = (reg, status)
      · have h1 : lreg = reg := congrArg Prod.fst hkk
        have h2 : lstatus = status := congrArg Prod.snd hkk
        have hlt : ls + lv < s := hstrict hfl h1 h2
        have := hb1 x hx
        omega
      · have := hb2 x hx (by rw [hxk]; exact fun h => hkk h.symm)
        omega
  · -- a pending interval exists
    obtain ⟨hmono, _⟩ := hcond lreg lstatus ls lv hls
    by_cases hmerge :
        (lreg == reg && lstatus == status && (ls + lv == s)) = true
    · -- same key and contiguous: extend the pending interval
      have hstep : delegStep st (.asnL reg cc s v d status) =
          { st with pending := some (s0, reg, status, s, v) } := by
        simp only [delegStep, hpn]
        rw [if_pos hmerge]
      rw [hstep]
      obtain ⟨⟨hr1, hr2⟩, hr3⟩ : (lreg = reg ∧ lstatus = status) ∧ ls + lv = s := by
        simpa using hmerge
      refine ⟨hgood, hnemp, Or.inr (Or.inr ⟨s0, reg, status, s, v, rfl, rfl, by omega, hv,
        hb1, ?_⟩)⟩
      intro x hx hxk
      exact hb2 x hx (by rw [hxk, hr1, hr2])
    · -- close the pending interval and open a new one
      have hstep : delegStep st (.asnL reg cc s v d status) =
          { st with
              intervals := st.intervals ++ [((lreg, lstatus), (s0, ls + lv - 1))]
              pending := some (s, reg, status, s, v) } := by
        simp only [delegStep, hpn]
        rw [if_neg hmerge]
      rw [hstep]
      have hmem : ∀ x : (String × String) × (Nat × Nat),
          x ∈ storedK { st with
              intervals := st.intervals ++ [((lreg, lstatus), (s0, ls + lv - 1))]
              pending := some (s, reg, status, s, v) } ↔
          x ∈ storedK st ∨ x = ((lreg, lstatus), (s0, ls + lv - 1)) := by
        intro x
        simp only [storedK, List.mem_append, List.mem_singleton, List.append_assoc]
        tauto
      have hgood2 := goodAll_extend (storedK st) _ ((lreg, lstatus), (s0, ls + lv - 1))
        hmem hgood hnemp (fun x hx hxk => hb2 x hx hxk)
        (show s0 ≤ ls + lv - 1 by omega)
      refine ⟨hgood2, ?_, Or.inr (Or.inr ⟨s, reg, status, s, v, rfl, rfl, le_refl s, hv,
        ?_, ?_⟩)⟩
      · intro x hx
        rcases (hmem x).mp hx with hxl | hxe
        · exact hnemp x hxl
        · rw [hxe]
          show s0 ≤ ls + lv - 1
          omega
      · intro x hx
        rcases (hmem x).mp hx with hxl | hxe
        · have := hb1 x hxl; omega
        · rw [hxe]
          show ls + lv - 1 + 1 ≤ s
          omega
      · intro x hx hxk
        rcases (hmem x).mp hx with hxl | hxe
        · have := hb1 x hxl; omega
        · rw [hxe] at hxk ⊢
          have hxk2 : (lreg, lstatus) = (reg, status) := hxk
          have h1 : lreg = reg := congrArg Prod.fst hxk2
          have h2 : lstatus = status := congrArg Prod.snd hxk2
          have hne2 : ls + lv ≠ s := by
            intro h3
            rw [h1, h2, h3] at hmerge
            simp at hmerge
          show ls + lv - 1 + 1 < s
          omega

/-- The prefix-record step of the loop preserves the invariant. -/
theorem stateOK_pfx (st : BuildState) (last : Option (String × String × Nat × Nat))
    (flushed : Bool) (reg cc : String) (v4 : Bool) (s2 : String) (v2 : Nat) (d2 st2 : String)
    (hok : StateOK st last flushed) :
    StateOK (delegStep st (.pfxL reg cc v4 s2 v2 d2 st2)) last true := by
  obtain ⟨hgood, hnemp, hd⟩ := hok
  rcases hd with ⟨hpn, hln, hsk⟩ |
    ⟨lreg, lstatus, ls, lv, hpn, hls, hfl, hlv, hb1, hb2⟩ |
    ⟨s0, lreg, lstatus, ls, lv, hpn, hls, hs0, hlv, hb1, hb2⟩
  · -- nothing pending: the record is ignored here
    have hstep : delegStep st (.pfxL reg cc v4 s2 v2 d2 st2) = st := by
      simp [delegStep, hpn]
    rw [hstep]
    exact ⟨hgood, hnemp, Or.inl ⟨hpn, hln, hsk⟩⟩
  · have hstep : delegStep st (.pfxL reg cc v4 s2 v2 d2 st2) = st := by
      simp [delegStep, hpn]
    rw [hstep]
    exact ⟨hgood, hnemp, Or.inr (Or.inl ⟨lreg, lstatus, ls, lv, hpn, hls, rfl, hlv, hb1, hb2⟩)⟩
  · -- flush the pending interval into the ASN interval dict
    have hstep : delegStep st (.pfxL reg cc v4 s2 v2 d2 st2) =
        { st with
            asnDict := st.asnDict ++ [((s0, ls + lv - 1), (lreg, lstatus))]
            pending := none } := by
      simp [delegStep, hpn]
    rw [hstep]
    have hmem : ∀ x : (String × String) × (Nat × Nat),
        x ∈ storedK { st with
            asnDict := st.asnDict ++ [((s0, ls + lv - 1), (lreg, lstatus))]
            pending := none } ↔
        x ∈ storedK st ∨ x = ((lreg, lstatus), (s0, ls + lv - 1)) := by
      intro x
      simp only [storedK, List.map_append, List.mem_append, List.mem_singleton, List.map_cons,
        List.map_nil]
      tauto
    have hgood2 := goodAll_extend (storedK st) _ ((lreg, lstatus), (s0, ls + lv - 1))
      hmem hgood hnemp (fun x hx hxk => hb2 x hx hxk)
      (show s0 ≤ ls + lv - 1 by omega)
    refine ⟨hgood2, ?_, Or.inr (Or.inl ⟨lreg, lstatus, ls, lv, rfl, hls, rfl, hlv,
      ?_, ?_⟩)⟩
    · intro x hx
      rcases (hmem x).mp hx with hxl | hxe
      · exact hnemp x hxl
      · rw [hxe]
        show s0 ≤ ls + lv - 1
        omega
    · intro x hx
      rcases (hmem x).mp hx with hxl | hxe
      · have := hb1 x hxl; omega
      · rw [hxe]
        show ls + lv - 1 + 1 ≤ ls + lv
        omega
    · intro x hx hxk
      rcases (hmem x).mp hx with hxl | hxe
      · have := hb1 x hxl; omega
      · rw [hxe] at hxk
        have hxk2 : (lreg, lstatus) ≠ (lreg, lstatus) := hxk
        exact absurd rfl hxk2

/-- The loop invariant holds after folding any well-formed line
stream. -/
theorem delegInvariant (rest : List DLine) :
    ∀ (st : BuildState) (last : Option (String × String × Nat × Nat)) (flushed : Bool),
      wfAux last flushed rest = true → StateOK st last flushed →
      ∃ last2 flushed2, StateOK (rest.foldl delegStep st) last2 flushed2 := by
  induction rest with
  | nil =>
    intro st last flushed _ hok
    exact ⟨last, flushed, hok⟩
  | cons l rest ih =>
    intro st last flushed hwf hok
    cases l with
    | asnL reg cc s v d status =>
      cases last with
      | none =>
        simp only [wfAux, Bool.and_eq_true, decide_eq_true_eq] at hwf
        obtain ⟨⟨hv, _⟩, hrest⟩ := hwf
        refine ih _ (some (reg, status, s, v)) false hrest
          (stateOK_asn st none flushed reg cc s v d status hok hv ?_)
        intro lreg2 lstatus2 ls2 lv2 heq
        simp at heq
      | some q =>
        obtain ⟨lreg, lstatus, ls, lv⟩ := q
        simp only [wfAux, Bool.and_eq_true, decide_eq_true_eq] at hwf
        obtain ⟨⟨hv, hmono, hfb⟩, hrest⟩ := hwf
        refine ih _ (some (reg, status, s, v)) false hrest
          (stateOK_asn st (some (lreg, lstatus, ls, lv)) flushed reg cc s v d status hok hv ?_)
        intro lreg2 lstatus2 ls2 lv2 heq
        have h := Option.some.inj heq
        rw [Prod.mk.injEq, Prod.mk.injEq, Prod.mk.injEq] at h
        obtain ⟨e1, e2, e3, e4⟩ := h
        subst e1; subst e2; subst e3; subst e4
        refine ⟨hmono, ?_⟩
        intro hf h1 h2
        rw [hf, h1, h2] at hfb
        simpa using hfb
    | pfxL reg cc v4 s2 v2 d2 st2 =>
      simp only [wfAux] at hwf
      exact ih _ last true hwf (stateOK_pfx st last flushed reg cc v4 s2 v2 d2 st2 hok)

/-- An interval stored for a key occurs, with that key, among all
stored keyed intervals. -/
theorem mem_storedIntervals (lines : List DLine) (registry status : String) (iv : Nat × Nat)
    (h : iv ∈ storedIntervals lines registry status) :
    ((registry, status), iv) ∈ storedK (buildDeleg lines) := by
  unfold storedIntervals at h
  rcases List.mem_append.mp h with h1 | h2
  · obtain ⟨x, hx, hxe⟩ := List.mem_map.mp h1
    obtain ⟨hxm, hxc⟩ := List.mem_filter.mp hx
    have hk : x.2 = (registry, status) := by simpa using hxc
    unfold storedK
    refine List.mem_append.mpr (Or.inl ?_)
    exact List.mem_map.mpr ⟨x, hxm, by rw [hk, hxe]⟩
  · obtain ⟨x, hx, hxe⟩ := List.mem_map.mp h2
    obtain ⟨hxm, hxc⟩ := List.mem_filter.mp hx
    have hk : x.1 = (registry, status) := by simpa using hxc
    unfold storedK
    refine List.mem_append.mpr (Or.inr ?_)
    have : x = ((registry, status), iv) := by
      rw [← hk, ← hxe]
    rw [← this]
    exact hxm

/-- Splitting a non-empty list at its last element. -/
theorem dropLast_lastRec (asns : List AsnRec) :
    ∀ prev : AsnRec, (prev :: asns).dropLast ++ [lastRec prev asns] = prev :: asns := by
  induction asns with
  | nil => intro prev; rfl
  | cons a rest ih =>
    intro prev
    have hdl : (prev :: a :: rest).dropLast = prev :: (a :: rest).dropLast := rfl
    rw [hdl, lastRec]
    rw [List.cons_append, ih a]

/-- Running the loop over an already coalesced asn record stream with
a pending singleton interval closes one interval per record: every
record up to the last lands in the intervals dict and the last stays
pending. -/
theorem foldCoalesced (asns : List AsnRec) :
    ∀ (prev : AsnRec) (ivs : List ((String × String) × (Nat × Nat)))
      (ad : List ((Nat × Nat) × (String × String))),
      chainNoMerge (prev :: asns) = true →
      (asns.map toAsnLine).foldl delegStep
        ⟨some (prev.start, prev.registry, prev.status, prev.start, prev.value), ivs, ad⟩ =
      ⟨some ((lastRec prev asns).start, (lastRec prev asns).registry,
          (lastRec prev asns).status, (lastRec prev asns).start, (lastRec prev asns).value),
        ivs ++ ((prev :: asns).dropLast.map describes), ad⟩ := by
  induction asns with
  | nil =>
    intro prev ivs ad _
    simp [lastRec]
  | cons a rest ih =>
    intro prev ivs ad hch
    have hch2 : noMerge prev a = true ∧ chainNoMerge (a :: rest) = true := by
      simpa [chainNoMerge, Bool.and_eq_true] using hch
    have hcond : (prev.registry == a.registry && prev.status == a.status &&
        (prev.start + prev.value == a.start)) = false := by
      have := hch2.1
      rwa [noMerge, Bool.not_eq_true'] at this
    have hstep : delegStep
        ⟨some (prev.start, prev.registry, prev.status, prev.start, prev.value), ivs, ad⟩
        (toAsnLine a) =
        ⟨some (a.start, a.registry, a.status, a.start, a.value),
          ivs ++ [((prev.registry, prev.status),
            (prev.start, prev.start + prev.value - 1))], ad⟩ := by
      simp only [delegStep, toAsnLine]
      rw [if_neg (by rw [hcond]; exact Bool.false_ne_true)]
    simp only [List.map_cons, List.foldl_cons]
    rw [hstep, ih a _ ad hch2.2]
    have hdl : (prev :: a :: rest).dropLast = prev :: (a :: rest).dropLast := rfl
    rw [lastRec, hdl]
    simp [describes, List.append_assoc]

/-- Running the builder over an already coalesced asn record stream
terminated by one prefix record stores exactly the described keyed
intervals, up to order. -/
theorem buildCoalesced (asns : List AsnRec) (hco : chainNoMerge asns = true)
    (reg cc : String) (v4 : Bool) (s2 : String) (v2 : Nat) (d2 st2 : String) :
    List.Perm
      (storedK (buildDeleg (asns.map toAsnLine ++ [DLine.pfxL reg cc v4 s2 v2 d2 st2])))
      (asns.map describes) := by
  cases asns with
  | nil =>
    simp [buildDeleg, delegStep, storedK]
  | cons a rest =>
    unfold buildDeleg
    rw [List.foldl_append]
    simp only [List.map_cons, List.foldl_cons]
    have hst1 : delegStep ⟨none, [], []⟩ (toAsnLine a) =
        ⟨some (a.start, a.registry, a.status, a.start, a.value), [], []⟩ := by
      simp [delegStep, toAsnLine]
    rw [hst1, foldCoalesced rest a [] [] hco]
    simp only [List.nil_append, List.foldl_cons, List.foldl_nil]
    have hflush : delegStep
        ⟨some ((lastRec a rest).start, (lastRec a rest).registry, (lastRec a rest).status,
          (lastRec a rest).start, (lastRec a rest).value),
          (a :: rest).dropLast.map describes, []⟩
        (DLine.pfxL reg cc v4 s2 v2 d2 st2) =
        ⟨none, (a :: rest).dropLast.map describes,
          [(((lastRec a rest).start, (lastRec a rest).start + (lastRec a rest).value - 1),
            ((lastRec a rest).registry, (lastRec a rest).status))]⟩ := by
      simp [delegStep]
    rw [hflush]
    unfold storedK
    simp only [List.map_cons, List.map_nil, List.nil_append]
    have h0 := congrArg (List.map describes) (dropLast_lastRec rest a)
    rw [List.map_append, List.map_cons, List.map_cons, List.map_nil] at h0
    rw [← h0]
    exact List.perm_append_comm

/-!  Concrete inputs used by counterexamples and witnesses. -/

/-- A node authorizing AS 5 with maxLength 1, on the one-bit prefix. -/
def c2node : RNode RoaData := ⟨[true], [(5, [⟨some 1, []⟩])]⟩

/-- A state whose rpki tree holds a failing entry on the most
specific covering node of the two-bit query and a passing entry for
the same AS on a less specific covering node. -/
def c2state : ROVState := ⟨[c2node, ⟨[], [(5, [⟨some 2, []⟩])]⟩], [], [], []⟩

/-- Delegated lines whose asn records are out of order: the alloc
records at 10 and 15 are contiguous with the same key but separated
by a record of a different status, so the builder stores them as two
adjacent intervals of the same key. -/
def c6lines : List DLine :=
  [.asnL "regA" "" 10 5 "" "alloc", .asnL "regA" "" 100 5 "" "resv",
   .asnL "regA" "" 15 5 "" "alloc", .pfxL "regA" "" true "0.0.0.0" 256 "" "alloc"]

/-- Well-formed delegated lines: sorted, positive, flushed at the
end. -/
def c6wflines : List DLine :=
  [.asnL "regA" "" 10 5 "" "alloc", .asnL "regA" "" 16 5 "" "resv",
   .asnL "regA" "" 30 5 "" "alloc", .pfxL "regA" "" true "0.0.0.0" 256 "" "x"]

/-- Two asn records that already describe a coalesced interval set:
same key but not contiguous. -/
def c7recs : List AsnRec := [⟨"a", "", 10, 5, "", "x"⟩, ⟨"a", "", 20, 5, "", "x"⟩]

/-- A single coalesced asn record stream for the witness. -/
def c7wrecs : List AsnRec := [⟨"a", "", 10, 5, "", "x"⟩, ⟨"b", "", 20, 5, "", "y"⟩]

/-!  The claims. -/

/-- C1: for every query (P, A) and every authorization source, if the
most specific covering record for P has an authorization entry keyed
by A whose maxLength is present and at least the length of P, or
whose prefix equals the query prefix, then check returns status Valid
for that source, and the scan stops at the first such AS-matching,
length-satisfying entry in most-specific-first order: the result is
determined by the most specific node alone, with the first passing
entry selected, whatever the less specific covering records
contain. -/
theorem claim1_valid_most_specific (st : ROVState) (p : List Bool) (a : Nat)
    (n : RNode RoaData) (rest : List (RNode RoaData)) (roas : List RoaEntry) :
    (searchCovering st.rpki p = n :: rest → lookupAsn n.data a = some roas →
      (∃ roa ∈ roas, roaPasses p.length p n.pfx roa = true) →
      (check st p a).rpki =
        (⟨"Valid", some n.pfx⟩, roas.find? (roaPasses p.length p n.pfx))) ∧
    (searchCovering st.irr p = n :: rest → lookupAsn n.data a = some roas →
      (∃ roa ∈ roas, roaPasses p.length p n.pfx roa = true) →
      (check st p a).irr =
        (⟨"Valid", some n.pfx⟩, roas.find? (roaPasses p.length p n.pfx))) := by
  constructor
  · intro h1 h2 h3
    exact checkSource_valid st.rpki p a n rest roas h1 h2 h3
  · intro h1 h2 h3
    exact checkSource_valid st.irr p a n rest roas h1 h2 h3

/-- Witness for C1 at a concrete state: a covering one-bit node
authorizes AS 15169 with maxLength 2 for the two-bit query. -/
theorem claim1_witness :
    (check ⟨[⟨[true], [(15169, [⟨some 2, [("ta", "x")]⟩])]⟩], [], [], []⟩ [true, false] 15169).rpki =
      (⟨"Valid", some [true]⟩,
        List.find? (roaPasses 2 [true, false] [true]) [⟨some 2, [("ta", "x")]⟩]) :=
  (claim1_valid_most_specific
    ⟨[⟨[true], [(15169, [⟨some 2, [("ta", "x")]⟩])]⟩], [], [], []⟩ [true, false] 15169
    ⟨[true], [(15169, [⟨some 2, [("ta", "x")]⟩])]⟩ [] [⟨some 2, [("ta", "x")]⟩]).1
    (by decide) (by decide) (by decide)

/-- C2 counterexample: the most specific covering node of the two-bit
query is keyed by AS 5 and every one of its entries fails the test,
yet check reports Valid, not Invalid,more-specific, because a less
specific covering node keyed by AS 5 has a passing entry: the verdict
is not independent of less specific covering records. -/
theorem claim2_counterexample :
    searchCovering c2state.rpki [true, true] = c2node :: [⟨[], [(5, [⟨some 2, []⟩])]⟩] ∧
    lookupAsn c2node.data 5 = some [⟨some 1, []⟩] ∧
    (∀ roa ∈ [(⟨some 1, []⟩ : RoaEntry)],
      roaPasses 2 [true, true] c2node.pfx roa = false) ∧
    (check c2state [true, true] 5).rpki.1.status = "Valid" ∧
    ¬ (check c2state [true, true] 5).rpki.1.status = "Invalid,more-specific" := by decide

/-- C2 amended: for every query (P, A) and every authorization
source, if the most specific covering record for P is keyed by A with
at least one entry and every one of its entries fails the max-length
or exact-match test, and no less specific covering record keyed by A
has an entry passing the test, then check returns status
Invalid,more-specific for that source. -/
theorem claim2_more_specific (st : ROVState) (p : List Bool) (a : Nat)
    (n : RNode RoaData) (rest : List (RNode RoaData)) (roas : List RoaEntry) :
    (searchCovering st.rpki p = n :: rest → lookupAsn n.data a = some roas →
      roas ≠ [] → (∀ roa ∈ roas, roaPasses p.length p n.pfx roa = false) →
      (∀ m ∈ rest, ∀ roas2, lookupAsn m.data a = some roas2 →
        ∀ roa ∈ roas2, roaPasses p.length p m.pfx roa = false) →
      (check st p a).rpki.1.status = "Invalid,more-specific") ∧
    (searchCovering st.irr p = n :: rest → lookupAsn n.data a = some roas →
      roas ≠ [] → (∀ roa ∈ roas, roaPasses p.length p n.pfx roa = false) →
      (∀ m ∈ rest, ∀ roas2, lookupAsn m.data a = some roas2 →
        ∀ roa ∈ roas2, roaPasses p.length p m.pfx roa = false) →
      (check st p a).irr.1.status = "Invalid,more-specific") := by
  constructor
  · intro h1 h2 h3 h4 h5
    exact checkSource_moreSpecific st.rpki p a n rest roas h1 h2 h3 h4 h5
  · intro h1 h2 h3 h4 h5
    exact checkSource_moreSpecific st.irr p a n rest roas h1 h2 h3 h4 h5

/-- Witness for the amended C2 at a concrete state: the only covering
node is keyed by AS 5 with one failing entry. -/
theorem claim2_witness :
    (check ⟨[c2node], [], [], []⟩ [true, true] 5).rpki.1.status = "Invalid,more-specific" :=
  (claim2_more_specific ⟨[c2node], [], [], []⟩ [true, true] 5 c2node [] [⟨some 1, []⟩]).1
    (by decide) (by decide) (by decide) (by decide) (by decide)

/-- C3: for every query (P, A) and every authorization source, if at
least one covering record exists for P but no covering record has an
authorization entry keyed by A, then check returns status Invalid,
not NotFound, for that source, with the most specific covering record
prefix reported. -/
theorem claim3_invalid_other_asn (st : ROVState) (p : List Bool) (a : Nat)
    (n : RNode RoaData) (rest : List (RNode RoaData)) :
    (searchCovering st.rpki p = n :: rest →
      (∀ m ∈ n :: rest, lookupAsn m.data a = none) →
      (check st p a).rpki.1 = ⟨"Invalid", some n.pfx⟩) ∧
    (searchCovering st.irr p = n :: rest →
      (∀ m ∈ n :: rest, lookupAsn m.data a = none) →
      (check st p a).irr.1 = ⟨"Invalid", some n.pfx⟩) := by
  constructor
  · intro h1 h2
    exact checkSource_invalid st.rpki p a n rest h1 h2
  · intro h1 h2
    exact checkSource_invalid st.irr p a n rest h1 h2

/-- Witness for C3 at a concrete state: the covering node authorizes
only AS 7, the query asks about AS 5. -/
theorem claim3_witness :
    (check ⟨[⟨[true], [(7, [⟨some 2, []⟩])]⟩], [], [], []⟩ [true, false] 5).rpki.1 =
      ⟨"Invalid", some [true]⟩ :=
  (claim3_invalid_other_asn ⟨[⟨[true], [(7, [⟨some 2, []⟩])]⟩], [], [], []⟩ [true, false] 5
    ⟨[true], [(7, [⟨some 2, []⟩])]⟩ []).1 (by decide) (by decide)

/-- C4: for every well-formed prefix and AS, a source with no
covering record yields status NotFound for that source (check is a
total function, so no error can be raised), and the delegated prefix
and ASN statuses are the NotFound sentinel when no delegation record
covers the prefix or contains the AS. -/
theorem claim4_notfound (st : ROVState) (p : List Bool) (a : Nat) :
    (searchCovering st.rpki p = [] → (check st p a).rpki.1.status = "NotFound") ∧
    (searchCovering st.irr p = [] → (check st p a).irr.1.status = "NotFound") ∧
    (searchBest st.delegatedPfx p = none → (check st p a).delegatedPfxStatus = notFoundData) ∧
    ((∀ iv ∈ st.delegatedAsn, ¬ (iv.1.1 ≤ a ∧ a ≤ iv.1.2)) →
      (check st p a).delegatedAsnStatus = notFoundData) := by
  refine ⟨?_, ?_, ?_, ?_⟩
  · intro h
    show (checkSource st.rpki p a).1.status = "NotFound"
    unfold checkSource
    rw [h]
    rfl
  · intro h
    show (checkSource st.irr p a).1.status = "NotFound"
    unfold checkSource
    rw [h]
    rfl
  · intro h
    have hdef : (check st p a).delegatedPfxStatus =
        match searchBest st.delegatedPfx p with
        | some n => n.data
        | none => notFoundData := rfl
    rw [hdef, h]
  · intro h
    show intervalGet st.delegatedAsn a notFoundData = notFoundData
    unfold intervalGet
    rw [List.find?_eq_none.mpr ?_]
    intro x hx
    have := h x hx
    simp only [Bool.and_eq_true, decide_eq_true_eq]
    tauto

/-- Witness for C4 at the empty state. -/
theorem claim4_witness :
    (check ⟨[], [], [], []⟩ [true] 7).rpki.1.status = "NotFound" ∧
    (check ⟨[], [], [], []⟩ [true] 7).irr.1.status = "NotFound" ∧
    (check ⟨[], [], [], []⟩ [true] 7).delegatedPfxStatus = notFoundData ∧
    (check ⟨[], [], [], []⟩ [true] 7).delegatedAsnStatus = notFoundData :=
  ⟨(claim4_notfound ⟨[], [], [], []⟩ [true] 7).1 (by decide),
   (claim4_notfound ⟨[], [], [], []⟩ [true] 7).2.1 (by decide),
   (claim4_notfound ⟨[], [], [], []⟩ [true] 7).2.2.1 (by decide),
   (claim4_notfound ⟨[], [], [], []⟩ [true] 7).2.2.2 (by decide)⟩

/-- C5: every authorization entry inserted for a (prefix, asn) pair
while loading a record stream into the rpki or the irr index is
contained, under the originating source key of the lookup result and
mapped from the inserted prefix, in lookup of that same prefix. -/
theorem claim5_roundtrip (rrecs irecs : List ((List Bool) × Nat × RoaEntry))
    (dpfx : List (RNode DelegData)) (dasn : List ((Nat × Nat) × DelegData))
    (p : List Bool) (a : Nat) (e : RoaEntry) :
    ((p, a, e) ∈ rrecs →
      retrievable ((lookup ⟨loadRecords [] rrecs, loadRecords [] irecs, dpfx, dasn⟩ p).rpki)
        p a e) ∧
    ((p, a, e) ∈ irecs →
      retrievable ((lookup ⟨loadRecords [] rrecs, loadRecords [] irecs, dpfx, dasn⟩ p).irr)
        p a e) := by
  constructor
  · intro h
    exact loadRetrieves rrecs p a e h
  · intro h
    exact loadRetrieves irecs p a e h

/-- Witness for C5 with one loaded rpki record. -/
theorem claim5_witness :
    retrievable
      ((lookup ⟨loadRecords [] [([true, false], 5, ⟨some 24, []⟩)], loadRecords [] [], [], []⟩
        [true, false]).rpki) [true, false] 5 ⟨some 24, []⟩ :=
  (claim5_roundtrip [([true, false], 5, ⟨some 24, []⟩)] [] [] [] [true, false] 5
    ⟨some 24, []⟩).1 (by decide)

/-- C6 counterexample: on the out-of-order line stream, the intervals
stored for the key (regA, alloc) are [15,19] and [10,14], which are
adjacent (14 + 1 = 15), so they are not maximal: the claimed
invariant fails on the code for this input. -/
theorem claim6_counterexample :
    storedIntervals c6lines "regA" "alloc" = [(15, 19), (10, 14)] ∧
    ¬ disjointMaximal (storedIntervals c6lines "regA" "alloc") := by decide

/-- C6 amended: after loading a delegation line stream whose asn
records have positive counts, are sorted and non-overlapping, and
never continue, contiguously and with an unchanged key, an interval
flushed by a prefix record, the intervals stored for any given
(registry, status) key are pairwise disjoint and maximal: no two
distinct stored intervals with the same key overlap or are
adjacent. -/
theorem claim6_disjoint_maximal (lines : List DLine) (hwf : wfDeleg lines = true)
    (registry status : String) :
    disjointMaximal (storedIntervals lines registry status) := by
  have hinit : StateOK ⟨none, [], []⟩ none false := by
    refine ⟨?_, ?_, Or.inl ⟨rfl, rfl, rfl⟩⟩
    · intro x hx
      simp [storedK] at hx
    · intro x hx
      simp [storedK] at hx
  obtain ⟨l2, f2, hok⟩ := delegInvariant lines ⟨none, [], []⟩ none false hwf hinit
  intro i hi j hj hne
  have hik := mem_storedIntervals lines registry status i hi
  have hjk := mem_storedIntervals lines registry status j hj
  exact hok.1 _ hik _ hjk (fun h => hne (congrArg Prod.snd h)) rfl

/-- Witness for the amended C6 on a concrete well-formed stream. -/
theorem claim6_witness :
    wfDeleg c6wflines = true ∧ disjointMaximal (storedIntervals c6wflines "regA" "alloc") :=
  ⟨by decide, claim6_disjoint_maximal c6wflines (by decide) "regA" "alloc"⟩

/-- C7 counterexample: the two records describe an already coalesced
interval set, one line per maximal interval, but the builder run on
exactly these lines drops the final pending interval [20,24], so the
produced interval set is not the input set. -/
theorem claim7_counterexample :
    chainNoMerge c7recs = true ∧
    ((("a", "x"), (20, 24)) ∈ c7recs.map describes) ∧
    ¬ ((("a", "x"), (20, 24)) ∈ storedK (buildDeleg (c7recs.map toAsnLine))) := by decide

/-- C7 amended: running the builder on lines that already describe a
coalesced interval set, one asn record per maximal interval with no
two consecutive records mergeable, terminated by a prefix record so
that the final pending interval is flushed as in the real files,
produces exactly the described keyed interval set, with no further
merging and no splitting, up to order. -/
theorem claim7_idempotent (asns : List AsnRec) (hco : chainNoMerge asns = true)
    (reg cc : String) (v4 : Bool) (s2 : String) (v2 : Nat) (d2 st2 : String) :
    List.Perm
      (storedK (buildDeleg (asns.map toAsnLine ++ [DLine.pfxL reg cc v4 s2 v2 d2 st2])))
      (asns.map describes) :=
  buildCoalesced asns hco reg cc v4 s2 v2 d2 st2

/-- Witness for the amended C7 on a concrete coalesced stream. -/
theorem claim7_witness :
    List.Perm
      (storedK (buildDeleg (c7wrecs.map toAsnLine ++ [DLine.pfxL "r" "" true "s" 1 "" "st"])))
      (c7wrecs.map describes) :=
  claim7_idempotent c7wrecs (by decide) "r" "" true "s" 1 "" "st"

/-- A string lookup accepts (prefix or bare address) that check
rejects can only be a bare address: whenever the query parse fails,
the stricter prefix parse of check fails too. -/
theorem parsePfx_none_of_parseQuery_none (s : String) (h : parseQuery s = none) :
    parsePfx s = none := by
  unfold parseQuery at h
  unfold parsePfx
  cases hsp : splitOnChar '/' s.toList with
  | nil => rfl
  | cons a tl =>
    cases tl with
    | nil => rfl
    | cons b tl2 =>
      cases tl2 with
      | nil =>
        rw [hsp] at h
        exact h
      | cons c2 tl3 => rfl

/-- C8: a malformed prefix string, one that parses neither as an IP
prefix nor as a bare IP address, fails both check and lookup
immediately with the InvalidPrefix error; check additionally requires
the length part, since it parses it with int() before consulting the
trees, so a string without a parsable address/len shape fails check
with the same error; and on every well-formed query both operations
return the result of the total validation functions, whose index
operations never fail. -/
theorem claim8_malformed_query (st : ROVState) (s : String) (a : Nat) :
    (parseQuery s = none →
      checkE st s a = Except.error "InvalidPrefix" ∧
      lookupE st s = Except.error "InvalidPrefix") ∧
    (parsePfx s = none → checkE st s a = Except.error "InvalidPrefix") ∧
    (∀ p, parsePfx s = some p → checkE st s a = Except.ok (check st p a)) ∧
    (∀ p, parseQuery s = some p → lookupE st s = Except.ok (lookup st p)) := by
  refine ⟨?_, ?_, ?_, ?_⟩
  · intro h
    have h2 := parsePfx_none_of_parseQuery_none s h
    constructor
    · unfold checkE
      rw [h2]
    · unfold lookupE
      rw [h]
  · intro h
    unfold checkE
    rw [h]
  · intro p h
    unfold checkE
    rw [h]
  · intro p h
    unfold lookupE
    rw [h]

set_option maxRecDepth 8192 in
/-- Witness for C8: a string of stray colons fails both operations, a
prefix without a length part fails check, and a well-formed IPv4
prefix, bare IPv4 address and IPv6 prefix are validated. -/
theorem claim8_witness :
    (checkE ⟨[], [], [], []⟩ ":::" 5 = Except.error "InvalidPrefix" ∧
      lookupE ⟨[], [], [], []⟩ ":::" = Except.error "InvalidPrefix") ∧
    checkE ⟨[], [], [], []⟩ "8.8.8.0" 5 = Except.error "InvalidPrefix" ∧
    checkE ⟨[], [], [], []⟩ "8.8.8.0/24" 5 =
      Except.ok (check ⟨[], [], [], []⟩
        ((natToBits 32 (((8 * 256 + 8) * 256 + 8) * 256 + 0)).take 24) 5) ∧
    lookupE ⟨[], [], [], []⟩ "8.8.8.0" =
      Except.ok (lookup ⟨[], [], [], []⟩
        (natToBits 32 (((8 * 256 + 8) * 256 + 8) * 256 + 0))) ∧
    lookupE ⟨[], [], [], []⟩ "2001:db8::/32" =
      Except.ok (lookup ⟨[], [], [], []⟩
        ((wordsBits [8193, 3512, 0, 0, 0, 0, 0, 0]).take 32)) :=
  ⟨(claim8_malformed_query ⟨[], [], [], []⟩ ":::" 5).1 (by decide),
   (claim8_malformed_query ⟨[], [], [], []⟩ "8.8.8.0" 5).2.1 (by decide),
   (claim8_malformed_query ⟨[], [], [], []⟩ "8.8.8.0/24" 5).2.2.1
     ((natToBits 32 (((8 * 256 + 8) * 256 + 8) * 256 + 0)).take 24) (by decide),
   (claim8_malformed_query ⟨[], [], [], []⟩ "8.8.8.0" 5).2.2.2
     (natToBits 32 (((8 * 256 + 8) * 256 + 8) * 256 + 0)) (by decide),
   (claim8_malformed_query ⟨[], [], [], []⟩ "2001:db8::/32" 5).2.2.2
     ((wordsBits [8193, 3512, 0, 0, 0, 0, 0, 0]).take 32) (by decide)⟩

/-- C9: check and lookup never mutate the indices: with the engine
state threaded through the two query operations as the Python methods
receive it, the state after any call is the state before it, for all
four indices at once. -/
theorem claim9_no_mutation (st : ROVState) (p : List Bool) (a : Nat) :
    (checkSt st p a).2 = st ∧ (lookupSt st p).2 = st :=
  ⟨rfl, rfl⟩

/-- C10: when no delegated prefix record covers the query prefix,
lookup omits the delegated key of its result entirely, modelled as
the none value, while check always includes a delegated prefix status
equal to the NotFound sentinel in the same situation. -/
theorem claim10_delegated_asymmetry (st : ROVState) (p : List Bool) (a : Nat) :
    searchBest st.delegatedPfx p = none →
      (lookup st p).delegated = none ∧
      (check st p a).delegatedPfxStatus = notFoundData := by
  intro h
  constructor
  · show (searchBest st.delegatedPfx p).map (fun n => n.data) = none
    rw [h]
    rfl
  · have hdef : (check st p a).delegatedPfxStatus =
        match searchBest st.delegatedPfx p with
        | some n => n.data
        | none => notFoundData := rfl
    rw [hdef, h]

/-- Witness for C10 at the empty state. -/
theorem claim10_witness :
    (lookup ⟨[], [], [], []⟩ [true]).delegated = none ∧
    (check ⟨[], [], [], []⟩ [true] 3).delegatedPfxStatus = notFoundData :=
  claim10_delegated_asymmetry ⟨[], [], [], []⟩ [true] 3 (by decide)
